import Mathlib

/-!
Shallow embedding of the STM32 logic-analyzer capture core
(`src/interrupt_based_analyzer/Core/Src/main.c`) and proofs of the
specified properties: timer composition, event encoding, the
single-producer/single-consumer ring buffer, the transmitter's
chunking/serialization/retry logic, and the session-stop lifecycle.

Machine integers are modelled as `Nat` with explicit `% 2 ^ 32`
(respectively truncation masks) where the C code relies on unsigned
wraparound.  Hardware reads (timer registers, pin levels, the
millisecond tick) are passed in as explicit parameters, so each C
function becomes a pure Lean function of its state and its reads.
-/

namespace LA

/-- `#define EVENT_CHUNK_SIZE 16` — events per USB packet. -/
def EVENT_CHUNK_SIZE : Nat := 16

/-- `#define USB_SEND_INTERVAL_MS 2` — send every 2 ms. -/
def USB_SEND_INTERVAL_MS : Nat := 2

/-- `#define MAX_EVENTS 1024` — ring-buffer capacity (2^10). -/
def MAX_EVENTS : Nat := 1024

/-- `#define EVENT_MASK (MAX_EVENTS - 1)` — slot bitmask. -/
def EVENT_MASK : Nat := MAX_EVENTS - 1

/-- Modulus of C `uint32_t` arithmetic. -/
def U32 : Nat := 2 ^ 32

/-- `GPIO_PIN_4 = 1 << 4` (STM32 HAL pin identity). -/
def GPIO_PIN_4 : Nat := 16

/-- `GPIO_PIN_5 = 1 << 5`. -/
def GPIO_PIN_5 : Nat := 32

/-- `GPIO_PIN_6 = 1 << 6`. -/
def GPIO_PIN_6 : Nat := 64

/-- `GPIO_PIN_7 = 1 << 7`. -/
def GPIO_PIN_7 : Nat := 128

/-- C `uint32_t` subtraction `a - b` for operands `a b < U32`. -/
def sub32 (a b : Nat) : Nat := (a + U32 - b) % U32

/-- Ring-buffer state: the globals `write_index`, `read_index` and
`event_buffer` of main.c.  The cursors hold `uint32_t` values, the
buffer is the 1024-slot array. -/
structure RB where
  write_index : Nat
  read_index : Nat
  event_buffer : List Nat
deriving DecidableEq

/-- Boot state: both cursors 0, zero-initialised array. -/
def initRB : RB := ⟨0, 0, List.replicate MAX_EVENTS 0⟩

/-- The producer push path of `HAL_GPIO_EXTI_Callback` (main.c lines
112–117): `next_write = write_index + 1`; store and publish only when
`next_write - read_index <= MAX_EVENTS`. -/
def try_push (s : RB) (data : Nat) : RB × Bool :=
  if sub32 ((s.write_index + 1) % U32) s.read_index ≤ MAX_EVENTS then
    ({ write_index := (s.write_index + 1) % U32,
       read_index := s.read_index,
       event_buffer := s.event_buffer.set (s.write_index &&& EVENT_MASK) data },
     true)
  else (s, false)

/-- The consumer's occupancy read `write_index - read_index` (uint32),
main.c line 170. -/
def diff (s : RB) : Nat := sub32 s.write_index s.read_index

/-- One iteration of the consumer drain-loop body (main.c lines
185–186): read `event_buffer[read_index & EVENT_MASK]`, then
`read_index++`. -/
def pop1 (s : RB) : RB × Nat :=
  (⟨s.write_index, (s.read_index + 1) % U32, s.event_buffer⟩,
   s.event_buffer.getD (s.read_index &&& EVENT_MASK) 0)

/-- `get_32bit_timer` from main.c.  The four parameters are the values
returned by the four hardware register reads, in program order:
`high1 = TIM3->CNT`, `low = TIM2->CNT`, `high2 = TIM3->CNT`, and
`low2` the re-read of `TIM2->CNT` performed only when `high1 != high2`. -/
def get_32bit_timer (high1 low high2 low2 : Nat) : Nat :=
  if high1 ≠ high2 then (high2 <<< 16) ||| low2
  else (high1 <<< 16) ||| low

/-- Event word packing from `HAL_GPIO_EXTI_Callback`:
`data = (edge << 31) | (channel << 29) | (time & 0x1FFFFFFF)`. -/
def encode_event (edge channel time : Nat) : Nat :=
  (edge <<< 31) ||| (channel <<< 29) ||| (time &&& 0x1FFFFFFF)

/-- Direction field of an event word, per the spec layout (bit 31,
1 = rising). -/
def decode_direction (data : Nat) : Nat :=
  (data >>> 31) &&& 1

/-- Channel field of an event word, per the spec layout (bits 30–29). -/
def decode_channel (data : Nat) : Nat :=
  (data >>> 29) &&& 3

/-- Timestamp field of an event word, per the spec layout (bits 28–0). -/
def decode_timestamp (data : Nat) : Nat :=
  data &&& 0x1FFFFFFF

/-! ### Bit-arithmetic helpers -/

/-- Bitwise or of a shifted value with a value that fits entirely below
the shift is plain addition. -/
theorem lor_mul_two_pow_add {a b k : Nat} (hb : b < 2 ^ k) :
    (a * 2 ^ k) ||| b = a * 2 ^ k + b := by
  apply Nat.eq_of_testBit_eq
  intro i
  rw [Nat.testBit_or]
  rcases Nat.lt_or_ge i k with h | h
  · have hpos : 0 < 2 ^ i := Nat.two_pow_pos i
    have hsplit : ∀ c d : Nat, (c * 2 ^ k + d) / 2 ^ i % 2 = d / 2 ^ i % 2 := by
      intro c d
      have hk : c * 2 ^ k = c * 2 ^ (k - i) * 2 ^ i := by
        rw [Nat.mul_assoc, ← Nat.pow_add]
        congr 2
        omega
      have hdvd : 2 ∣ c * 2 ^ (k - i) :=
        Dvd.dvd.mul_left (dvd_pow_self 2 (by omega)) c
      rw [hk, Nat.add_comm, Nat.add_mul_div_right _ _ hpos]
      omega
    have hzero : (a * 2 ^ k) / 2 ^ i % 2 = 0 := by
      have := hsplit a 0
      simpa using this
    simp only [Nat.testBit_to_div_mod, hsplit a b, hzero]
    simp
  · have hbf : b.testBit i = false :=
      Nat.testBit_lt_two_pow
        (Nat.lt_of_lt_of_le hb (Nat.pow_le_pow_right (by omega) h))
    have hdiv : (a * 2 ^ k + b) / 2 ^ i = (a * 2 ^ k) / 2 ^ i := by
      have hi : (2 : Nat) ^ i = 2 ^ k * 2 ^ (i - k) := by
        rw [← Nat.pow_add]
        congr 1
        omega
      rw [hi, ← Nat.div_div_eq_div_mul, ← Nat.div_div_eq_div_mul,
          Nat.add_comm, Nat.add_mul_div_right _ _ (Nat.two_pow_pos k),
          Nat.div_eq_of_lt hb, Nat.zero_add,
          Nat.mul_div_cancel _ (Nat.two_pow_pos k)]
    rw [hbf, Bool.or_false]
    simp only [Nat.testBit_to_div_mod, hdiv]

/-- The encoder in closed arithmetic form. -/
theorem encode_event_eq (edge channel time : Nat)
    (he : edge < 2) (hc : channel < 4) :
    encode_event edge channel time
      = edge * 2 ^ 31 + channel * 2 ^ 29 + time % 2 ^ 29 := by
  unfold encode_event
  have hmaskL : (0x1FFFFFFF : Nat) = 2 ^ 29 - 1 := by norm_num
  have hmask : time &&& 0x1FFFFFFF = time % 2 ^ 29 := by
    rw [hmaskL]
    exact Nat.and_pow_two_sub_one_eq_mod time 29
  rw [hmask, Nat.shiftLeft_eq, Nat.shiftLeft_eq]
  have h1 : edge * 2 ^ 31 ||| channel * 2 ^ 29
      = edge * 2 ^ 31 + channel * 2 ^ 29 :=
    lor_mul_two_pow_add (by omega)
  have h2 : edge * 2 ^ 31 + channel * 2 ^ 29
      = (edge * 4 + channel) * 2 ^ 29 := by ring
  have h3 : time % 2 ^ 29 < 2 ^ 29 := Nat.mod_lt _ (by norm_num)
  rw [h1, h2, lor_mul_two_pow_add h3]

/-- C3: for every channel in {0,1,2,3}, direction in {rising, falling}
(encoded 1/0), and timestamp in [0, 2^29−1], encoding the triple into
the 32-bit word (direction in bit 31, channel in bits 30–29, timestamp
in bits 28–0) and then decoding recovers the exact triple. -/
theorem encode_decode_roundtrip (edge channel time : Nat)
    (he : edge < 2) (hc : channel < 4) (ht : time < 2 ^ 29) :
    decode_direction (encode_event edge channel time) = edge ∧
    decode_channel (encode_event edge channel time) = channel ∧
    decode_timestamp (encode_event edge channel time) = time := by
  have hE : encode_event edge channel time
      = edge * 2 ^ 31 + channel * 2 ^ 29 + time := by
    rw [encode_event_eq _ _ _ he hc, Nat.mod_eq_of_lt ht]
  have hmaskL : (0x1FFFFFFF : Nat) = 2 ^ 29 - 1 := by norm_num
  unfold decode_direction decode_channel decode_timestamp
  rw [hE, Nat.shiftRight_eq_div_pow, Nat.shiftRight_eq_div_pow,
      Nat.and_one_is_mod, hmaskL, Nat.and_pow_two_sub_one_eq_mod]
  have h3 : ((edge * 2 ^ 31 + channel * 2 ^ 29 + time) / 2 ^ 29) &&& 3
      = ((edge * 2 ^ 31 + channel * 2 ^ 29 + time) / 2 ^ 29) % 4 := by
    have := Nat.and_pow_two_sub_one_eq_mod
      ((edge * 2 ^ 31 + channel * 2 ^ 29 + time) / 2 ^ 29) 2
    norm_num at this
    exact this
  rw [h3]
  refine ⟨by omega, by omega, by omega⟩

/-- Closed-form witness for `encode_decode_roundtrip`. -/
theorem encode_decode_roundtrip_witness :
    decode_direction (encode_event 1 2 12345) = 1 ∧
    decode_channel (encode_event 1 2 12345) = 2 ∧
    decode_timestamp (encode_event 1 2 12345) = 12345 :=
  encode_decode_roundtrip 1 2 12345 (by decide) (by decide) (by decide)

/-- C4: if the high counter is seen to change between the two reads
(`high1 ≠ high2`, one wrap), the returned tick is the post-wrap high
word combined with the re-read low word — never the torn combination of
the pre-wrap high word with the post-wrap low word; if the two high
reads agree, the result combines them with the single low read. -/
theorem get_32bit_timer_correct (high1 low high2 low2 : Nat)
    (hh1 : high1 < 2 ^ 16) (hh2 : high2 < 2 ^ 16)
    (hl : low < 2 ^ 16) (hl2 : low2 < 2 ^ 16) :
    (high1 ≠ high2 →
      get_32bit_timer high1 low high2 low2 = high2 * 2 ^ 16 + low2 ∧
      get_32bit_timer high1 low high2 low2 ≠ high1 * 2 ^ 16 + low2) ∧
    (high1 = high2 →
      get_32bit_timer high1 low high2 low2 = high1 * 2 ^ 16 + low) := by
  unfold get_32bit_timer
  constructor
  · intro hne
    rw [if_pos hne, Nat.shiftLeft_eq, lor_mul_two_pow_add hl2]
    refine ⟨rfl, ?_⟩
    intro hcontra
    exact hne (by omega)
  · intro heq
    rw [if_neg (by simpa using heq), Nat.shiftLeft_eq, lor_mul_two_pow_add hl]

/-- Closed-form witness for `get_32bit_timer_correct`. -/
theorem get_32bit_timer_correct_witness :
    (get_32bit_timer 7 60000 8 3 = 8 * 2 ^ 16 + 3 ∧
      get_32bit_timer 7 60000 8 3 ≠ 7 * 2 ^ 16 + 3) ∧
    get_32bit_timer 5 123 5 0 = 5 * 2 ^ 16 + 123 :=
  ⟨(get_32bit_timer_correct 7 60000 8 3 (by decide) (by decide)
      (by decide) (by decide)).1 (by decide),
   (get_32bit_timer_correct 5 123 5 0 (by decide) (by decide)
      (by decide) (by decide)).2 rfl⟩

/-! ### Producer/consumer interleavings and the FIFO invariant -/

/-- One atomic operation on the shared buffer: a producer push (the
edge-capture push path) or one consumer slot read. -/
inductive Op where
  | push : Nat → Op
  | pop : Op
deriving DecidableEq

/-- Execution trace: current buffer state, the successfully pushed
words in push order, and the popped words in pop order. -/
structure Trace where
  state : RB
  pushed : List Nat
  popped : List Nat
deriving DecidableEq

/-- Apply one operation.  A push records its word when the push path
stores it; the consumer reads a slot only when its occupancy read is
non-zero (the drain loop runs only for `to_send > 0`). -/
def step (t : Trace) : Op → Trace
  | Op.push v =>
      if (try_push t.state v).2 then
        ⟨(try_push t.state v).1, t.pushed ++ [v], t.popped⟩
      else
        ⟨(try_push t.state v).1, t.pushed, t.popped⟩
  | Op.pop =>
      if diff t.state = 0 then t
      else ⟨(pop1 t.state).1, t.pushed, t.popped ++ [(pop1 t.state).2]⟩

/-- Run an interleaving from the boot state. -/
def run (ops : List Op) : Trace :=
  ops.foldl step ⟨initRB, [], []⟩

theorem sub32_eq {a b L : Nat} (hb : b < U32) (hL : L < U32)
    (ha : a = (b + L) % U32) : sub32 a b = L := by
  simp only [sub32, U32] at *
  omega

theorem mod_U32_mod_cap (x : Nat) : x % U32 % MAX_EVENTS = x % MAX_EVENTS := by
  simp only [U32, MAX_EVENTS]
  omega

theorem and_mask_eq_mod (x : Nat) : x &&& EVENT_MASK = x % MAX_EVENTS := by
  have h : EVENT_MASK = 2 ^ 10 - 1 := by norm_num [EVENT_MASK, MAX_EVENTS]
  have h2 : MAX_EVENTS = 2 ^ 10 := by norm_num [MAX_EVENTS]
  rw [h, h2, Nat.and_pow_two_sub_one_eq_mod]

theorem getD_set_self (l : List Nat) (i v d : Nat) (h : i < l.length) :
    (l.set i v).getD i d = v := by
  induction l generalizing i with
  | nil => simp at h
  | cons a t ih =>
    cases i with
    | zero => rfl
    | succ n =>
      show (t.set n v).getD n d = v
      exact ih n (by simpa using h)

theorem getD_set_ne (l : List Nat) (i j v d : Nat) (hij : i ≠ j) :
    (l.set i v).getD j d = l.getD j d := by
  induction l generalizing i j with
  | nil => rfl
  | cons a t ih =>
    cases i with
    | zero =>
      cases j with
      | zero => exact absurd rfl hij
      | succ m => rfl
    | succ n =>
      cases j with
      | zero => rfl
      | succ m =>
        show (t.set n v).getD m d = t.getD m d
        exact ih n m (by omega)

theorem getD_append_lt (l l' : List Nat) (i d : Nat) (h : i < l.length) :
    (l ++ l').getD i d = l.getD i d := by
  induction l generalizing i with
  | nil => simp at h
  | cons a t ih =>
    cases i with
    | zero => rfl
    | succ n => exact ih n (by simpa using h)

theorem getD_append_len (l : List Nat) (v d : Nat) :
    (l ++ [v]).getD l.length d = v := by
  induction l with
  | nil => rfl
  | cons a t ih => exact ih

/-- FIFO invariant: the successfully pushed words are the popped words
followed by the pending words, occupancy is the pending count (at most
`MAX_EVENTS`), and the buffer slots from `read_index` onward hold the
pending words in order. -/
def Inv (t : Trace) : Prop :=
  t.state.write_index < U32 ∧ t.state.read_index < U32 ∧
  t.state.event_buffer.length = MAX_EVENTS ∧
  ∃ pending : List Nat,
    t.pushed = t.popped ++ pending ∧
    pending.length ≤ MAX_EVENTS ∧
    t.state.write_index = (t.state.read_index + pending.length) % U32 ∧
    ∀ i : Nat, i < pending.length →
      t.state.event_buffer.getD ((t.state.read_index + i) % MAX_EVENTS) 0
        = pending.getD i 0

theorem init_Inv : Inv ⟨initRB, [], []⟩ := by
  refine ⟨by simp [initRB, U32], by simp [initRB, U32], by simp [initRB],
    [], rfl, by simp [MAX_EVENTS], by simp [initRB], ?_⟩
  intro i hi
  simp at hi

theorem step_preserves_Inv (t : Trace) (op : Op) (h : Inv t) :
    Inv (step t op) := by
  obtain ⟨hw, hr, hlen, pending, hpp, hplen, hwi, hbuf⟩ := h
  cases op with
  | push v =>
    by_cases hc :
        sub32 ((t.state.write_index + 1) % U32) t.state.read_index ≤ MAX_EVENTS
    · have hnext : (t.state.write_index + 1) % U32
          = (t.state.read_index + (pending.length + 1)) % U32 := by
        rw [hwi]
        simp only [U32]
        omega
      have hLlt : pending.length + 1 < U32 := by
        simp only [U32, MAX_EVENTS] at hplen ⊢
        omega
      have hsub : sub32 ((t.state.write_index + 1) % U32) t.state.read_index
          = pending.length + 1 := sub32_eq hr hLlt hnext
      have hL : pending.length + 1 ≤ MAX_EVENTS := hsub ▸ hc
      have hslot : t.state.write_index &&& EVENT_MASK
          = (t.state.read_index + pending.length) % MAX_EVENTS := by
        rw [and_mask_eq_mod, hwi, mod_U32_mod_cap]
      simp only [step, try_push, hc, if_true, if_pos]
      refine ⟨Nat.mod_lt _ (by simp [U32]), hr,
        by rw [List.length_set]; exact hlen, pending ++ [v], ?_, ?_, ?_, ?_⟩
      · rw [hpp, List.append_assoc]
      · simpa using hL
      · simpa using hnext
      · intro i hi
        rw [List.length_append, List.length_singleton] at hi
        rcases Nat.lt_or_ge i pending.length with hilt | hige
        · have hne : (t.state.read_index + i) % MAX_EVENTS
              ≠ (t.state.read_index + pending.length) % MAX_EVENTS := by
            simp only [MAX_EVENTS] at hL ⊢
            omega
          rw [hslot, getD_set_ne _ _ _ _ _ (Ne.symm hne), hbuf i hilt,
            getD_append_lt _ _ _ _ hilt]
        · have hieq : i = pending.length := by omega
          subst hieq
          rw [hslot, getD_set_self _ _ _ _ (by rw [hlen]; exact Nat.mod_lt _ (by simp [MAX_EVENTS])),
            getD_append_len]
    · simp only [step, try_push, hc, if_false, if_neg]
      exact ⟨hw, hr, hlen, pending, hpp, hplen, hwi, hbuf⟩
  | pop =>
    by_cases hd : diff t.state = 0
    · simp only [step, hd, if_true, if_pos]
      exact ⟨hw, hr, hlen, pending, hpp, hplen, hwi, hbuf⟩
    · cases pending with
      | nil =>
        exact absurd (sub32_eq hr (by simp [U32]) hwi) hd
      | cons p rest =>
        have hhead : t.state.event_buffer.getD
            (t.state.read_index &&& EVENT_MASK) 0 = p := by
          rw [and_mask_eq_mod]
          have := hbuf 0 (by simp)
          simpa using this
        simp only [step, hd, if_false, pop1]
        refine ⟨hw, Nat.mod_lt _ (by simp [U32]), hlen, rest, ?_, ?_, ?_, ?_⟩
        · rw [hpp, hhead]
          simp
        · simp only [List.length_cons, MAX_EVENTS] at hplen ⊢
          omega
        · rw [hwi]
          simp only [List.length_cons, U32]
          omega
        · intro i hi
          have hidx : ((t.state.read_index + 1) % U32 + i) % MAX_EVENTS
              = (t.state.read_index + (i + 1)) % MAX_EVENTS := by
            simp only [U32, MAX_EVENTS]
            omega
          rw [hidx, hbuf (i + 1) (by simpa using Nat.succ_lt_succ hi)]
          rfl

theorem run_Inv (ops : List Op) : Inv (run ops) := by
  rw [run]
  have h : ∀ t : Trace, Inv t → Inv (ops.foldl step t) := by
    induction ops with
    | nil => exact fun t ht => ht
    | cons op rest ih => exact fun t ht => ih _ (step_preserves_Inv t op ht)
  exact h _ init_Inv

/-- C1: for any interleaving of pushes (via the edge-capture push path)
with consumer pops, the words returned by the pops are exactly an
initial segment, in push order, of the successfully pushed words: no
reordering, no duplication, no loss within what has been popped. -/
theorem fifo_order (ops : List Op) :
    ∃ rest : List Nat, (run ops).pushed = (run ops).popped ++ rest := by
  obtain ⟨_, _, _, pending, hpp, _⟩ := run_Inv ops
  exact ⟨pending, hpp⟩

/-- C2: in every state reachable from boot by pushes and pops, the
unsigned difference `write_index - read_index` is at most
`MAX_EVENTS = 1024`; and a push attempted when the difference would
exceed `MAX_EVENTS` returns without storing, leaving the whole buffer
state (in particular `write_index`) unchanged. -/
theorem occupancy_bound :
    (∀ ops : List Op, diff (run ops).state ≤ MAX_EVENTS) ∧
    (∀ (s : RB) (v : Nat),
      MAX_EVENTS < sub32 ((s.write_index + 1) % U32) s.read_index →
      try_push s v = (s, false)) := by
  constructor
  · intro ops
    obtain ⟨hw, hr, _, pending, _, hplen, hwi, _⟩ := run_Inv ops
    have hLlt : pending.length < U32 := by
      simp only [U32, MAX_EVENTS] at hplen ⊢
      omega
    have : diff (run ops).state = pending.length := sub32_eq hr hLlt hwi
    omega
  · intro s v hc
    simp only [try_push]
    rw [if_neg (by omega)]

/-- Closed-form witness for `occupancy_bound`. -/
theorem occupancy_bound_witness :
    diff (run [Op.push 5]).state ≤ MAX_EVENTS ∧
    try_push ⟨0, 2, []⟩ 7 = (⟨0, 2, []⟩, false) :=
  ⟨occupancy_bound.1 [Op.push 5],
   occupancy_bound.2 ⟨0, 2, []⟩ 7 (by decide)⟩

/-! ### Transmitter: drain, serialize, send, retry -/

/-- The consumer drain loop (main.c lines 183–191) popping `k` slots in
increasing index order. -/
def pop_batch (s : RB) : Nat → RB × List Nat
  | 0 => (s, [])
  | k + 1 =>
      ((pop_batch (pop1 s).1 k).1, (pop1 s).2 :: (pop_batch (pop1 s).1 k).2)

/-- Little-endian serialization of one event word (main.c lines
187–190): four bytes, least significant first. -/
def serialize_event (event : Nat) : List Nat :=
  [event &&& 0xFF, (event >>> 8) &&& 0xFF, (event >>> 16) &&& 0xFF,
   (event >>> 24) &&& 0xFF]

/-- The USB packet assembled by the drain loop: four bytes per drained
event, concatenated in arrival order. -/
def build_packet : List Nat → List Nat
  | [] => []
  | e :: rest => serialize_event e ++ build_packet rest

/-- The transmitter section of one main-loop iteration (main.c lines
167–197): read occupancy, fire when the chunk threshold or the send
interval is reached, drain `MIN(EVENT_CHUNK_SIZE, diff)` events,
serialize and send.  Returns the new buffer state and the packet handed
to the transport (`none` when nothing is sent). -/
def transmitter_step (s : RB) (now last_usb_send_time : Nat) :
    RB × Option (List Nat) :=
  if EVENT_CHUNK_SIZE ≤ diff s
      ∨ USB_SEND_INTERVAL_MS ≤ sub32 now last_usb_send_time then
    if 0 < min EVENT_CHUNK_SIZE (diff s) then
      ((pop_batch s (min EVENT_CHUNK_SIZE (diff s))).1,
       some (build_packet (pop_batch s (min EVENT_CHUNK_SIZE (diff s))).2))
    else (s, none)
  else (s, none)

/-- The busy-retry loop (main.c line 194):
`while (CDC_Transmit_FS(usb_packet, to_send * 4) == USBD_BUSY);`
modelled with explicit fuel; `send_ok i` is the transport's reply to
its i-th call (`true` = accepted, `false` = busy).  Returns the list of
packets passed to the transport and whether the loop has exited within
`fuel` calls.  The same immutable packet is passed on every attempt,
exactly as the C loop re-submits the unchanged `usb_packet` array. -/
def usb_retry_loop (send_ok : Nat → Bool) (packet : List Nat) :
    Nat → Nat → List (List Nat) × Bool
  | 0, _ => ([], false)
  | fuel + 1, i =>
      if send_ok i then ([packet], true)
      else
        (packet :: (usb_retry_loop send_ok packet fuel (i + 1)).1,
         (usb_retry_loop send_ok packet fuel (i + 1)).2)

/-- `last_usb_send_time = now` (main.c line 195) is executed only after
the retry loop exits. -/
def send_and_update (send_ok : Nat → Bool) (packet : List Nat)
    (fuel now last_usb_send_time : Nat) : List (List Nat) × Nat :=
  ((usb_retry_loop send_ok packet fuel 0).1,
   if (usb_retry_loop send_ok packet fuel 0).2 then now
   else last_usb_send_time)

theorem usb_retry_loop_go (send_ok : Nat → Bool) (packet : List Nat) :
    ∀ K start fuel, (∀ i, i < K → send_ok (start + i) = false) →
      send_ok (start + K) = true → K < fuel →
      usb_retry_loop send_ok packet fuel start
        = (List.replicate (K + 1) packet, true) := by
  intro K
  induction K with
  | zero =>
    intro start fuel hbusy hok hfuel
    match fuel, hfuel with
    | f + 1, _ =>
      simp only [usb_retry_loop]
      rw [if_pos (by simpa using hok)]
      rfl
  | succ K ih =>
    intro start fuel hbusy hok hfuel
    match fuel, hfuel with
    | f + 1, hf =>
      have h0 : send_ok start = false := by simpa using hbusy 0 (by omega)
      simp only [usb_retry_loop]
      rw [if_neg (by simp [h0])]
      have hrec := ih (start + 1) f
        (fun i hi => by
          have := hbusy (i + 1) (by omega)
          simpa [Nat.add_assoc, Nat.add_comm 1 i] using this)
        (by
          have : start + 1 + K = start + (K + 1) := by omega
          rw [this]
          exact hok)
        (by omega)
      rw [hrec]
      rfl

theorem usb_retry_loop_busy (send_ok : Nat → Bool) (packet : List Nat) :
    ∀ fuel start, (∀ i, i < fuel → send_ok (start + i) = false) →
      usb_retry_loop send_ok packet fuel start
        = (List.replicate fuel packet, false) := by
  intro fuel
  induction fuel with
  | zero => intro start _; rfl
  | succ f ih =>
    intro start hbusy
    have h0 : send_ok start = false := by simpa using hbusy 0 (by omega)
    simp only [usb_retry_loop]
    rw [if_neg (by simp [h0]),
      ih (start + 1) (fun i hi => by
        have := hbusy (i + 1) (by omega)
        simpa [Nat.add_assoc, Nat.add_comm 1 i] using this)]
    rfl

/-- C5: if the transport reports busy on its first `K` calls and ok on
call `K + 1`, the retry loop calls `send` exactly `K + 1` times, each
time with the byte-for-byte identical packet, and
`last_usb_send_time` is updated to `now` only once the loop has exited;
after any run of at most `K` (all-busy) calls it is still unchanged. -/
theorem busy_retry (K : Nat) (send_ok : Nat → Bool) (packet : List Nat)
    (now last fuel : Nat)
    (hbusy : ∀ i, i < K → send_ok i = false) (hok : send_ok K = true)
    (hfuel : K < fuel) :
    (usb_retry_loop send_ok packet fuel 0).1
      = List.replicate (K + 1) packet ∧
    send_and_update send_ok packet fuel now last
      = (List.replicate (K + 1) packet, now) ∧
    ∀ fuel', fuel' ≤ K →
      send_and_update send_ok packet fuel' now last
        = (List.replicate fuel' packet, last) := by
  have hgo := usb_retry_loop_go send_ok packet K 0 fuel
    (fun i hi => by simpa using hbusy i hi) (by simpa using hok) hfuel
  refine ⟨by rw [hgo], ?_, ?_⟩
  · rw [send_and_update, hgo]
    rfl
  · intro fuel' hle
    have hb := usb_retry_loop_busy send_ok packet fuel' 0
      (fun i hi => by simpa using hbusy i (by omega))
    rw [send_and_update, hb]
    rfl

/-- Closed-form witness for `busy_retry`. -/
theorem busy_retry_witness :
    (usb_retry_loop (fun i => decide (i = 2)) [1, 2, 3] 4 0).1
      = List.replicate 3 [1, 2, 3] ∧
    send_and_update (fun i => decide (i = 2)) [1, 2, 3] 4 9 5
      = (List.replicate 3 [1, 2, 3], 9) ∧
    send_and_update (fun i => decide (i = 2)) [1, 2, 3] 2 9 5
      = (List.replicate 2 [1, 2, 3], 5) :=
  ⟨(busy_retry 2 _ _ 9 5 4 (by decide) (by decide) (by decide)).1,
   (busy_retry 2 _ _ 9 5 4 (by decide) (by decide) (by decide)).2.1,
   (busy_retry 2 _ _ 9 5 4 (by decide) (by decide) (by decide)).2.2 2
     (by decide)⟩

theorem pop_batch_spec (k : Nat) :
    ∀ s : RB, s.write_index < U32 → s.read_index < U32 → k ≤ diff s →
      (pop_batch s k).1.write_index = s.write_index ∧
      (pop_batch s k).1.read_index = (s.read_index + k) % U32 ∧
      (pop_batch s k).1.event_buffer = s.event_buffer ∧
      (pop_batch s k).2.length = k ∧
      diff (pop_batch s k).1 = diff s - k := by
  induction k with
  | zero =>
    intro s hw hr _
    exact ⟨rfl, by simpa using (Nat.mod_eq_of_lt hr).symm, rfl, rfl, rfl⟩
  | succ k ih =>
    intro s hw hr hk
    have hd1 : diff (pop1 s).1 = diff s - 1 := by
      simp only [diff, sub32, pop1, U32] at *
      omega
    have hr1 : (pop1 s).1.read_index < U32 :=
      Nat.mod_lt _ (by simp [U32])
    have hrec := ih (pop1 s).1 hw hr1 (by omega)
    refine ⟨hrec.1, ?_, hrec.2.2.1, ?_, ?_⟩
    · rw [show (pop_batch s (k + 1)).1 = (pop_batch (pop1 s).1 k).1 from rfl,
        hrec.2.1]
      simp only [pop1, U32]
      omega
    · show ((pop1 s).2 :: (pop_batch (pop1 s).1 k).2).length = k + 1
      rw [List.length_cons, hrec.2.2.2.1]
    · rw [show (pop_batch s (k + 1)).1 = (pop_batch (pop1 s).1 k).1 from rfl,
        hrec.2.2.2.2, hd1]
      omega

theorem build_packet_length (events : List Nat) :
    (build_packet events).length = 4 * events.length := by
  induction events with
  | nil => rfl
  | cons e t ih =>
    simp only [build_packet, serialize_event, List.length_append,
      List.length_cons, ih]
    simp
    omega

theorem build_packet_group (events : List Nat) :
    ∀ i, i < events.length →
      ((build_packet events).drop (4 * i)).take 4
        = serialize_event (events.getD i 0) := by
  induction events with
  | nil => intro i hi; simp at hi
  | cons e t ih =>
    intro i hi
    cases i with
    | zero =>
      show ((serialize_event e ++ build_packet t).drop 0).take 4
        = serialize_event e
      rw [List.drop_zero]
      simp [serialize_event]
    | succ n =>
      have h4 : 4 * (n + 1) = 4 + 4 * n := by ring
      rw [h4, ← List.drop_drop]
      have hdrop : (build_packet (e :: t)).drop 4 = build_packet t := by
        simp [build_packet, serialize_event]
      rw [hdrop]
      exact ih n (by simpa using hi)

theorem transmitter_fire (s : RB) (now last : Nat)
    (hcond : EVENT_CHUNK_SIZE ≤ diff s
      ∨ USB_SEND_INTERVAL_MS ≤ sub32 now last)
    (hpos : 0 < diff s) :
    transmitter_step s now last
      = ((pop_batch s (min EVENT_CHUNK_SIZE (diff s))).1,
         some (build_packet (pop_batch s (min EVENT_CHUNK_SIZE (diff s))).2)) := by
  have hmin : 0 < min EVENT_CHUNK_SIZE (diff s) := by
    simp only [EVENT_CHUNK_SIZE]
    omega
  simp only [transmitter_step, if_pos hcond, if_pos hmin]

theorem transmitter_idle (s : RB) (now last : Nat)
    (h : ¬ (EVENT_CHUNK_SIZE ≤ diff s
      ∨ USB_SEND_INTERVAL_MS ≤ sub32 now last)) :
    transmitter_step s now last = (s, none) := by
  simp only [transmitter_step, if_neg h]

theorem transmitter_empty (s : RB) (now last : Nat) (h : diff s = 0) :
    transmitter_step s now last = (s, none) := by
  simp [transmitter_step, h]

/-- C6: with 40 events pending and cursors in uint32 range, the first
fire drains and sends exactly 16 events (64 bytes) leaving occupancy
24, the second fire drains the next 16 leaving 8, a fire without the
interval trigger sends nothing, and a later interval-triggered fire
drains the remaining 8 (32 bytes); in general every fire drains exactly
`min EVENT_CHUNK_SIZE occupancy` events. -/
theorem chunking_deterministic (s : RB)
    (now1 last1 now2 last2 now3 last3 now4 last4 : Nat)
    (hw : s.write_index < U32) (hr : s.read_index < U32)
    (hd : diff s = 40)
    (hno : sub32 now3 last3 < USB_SEND_INTERVAL_MS)
    (hyes : USB_SEND_INTERVAL_MS ≤ sub32 now4 last4) :
    transmitter_step s now1 last1
      = ((pop_batch s 16).1, some (build_packet (pop_batch s 16).2)) ∧
    (pop_batch s 16).2.length = 16 ∧
    (build_packet (pop_batch s 16).2).length = 64 ∧
    diff (pop_batch s 16).1 = 24 ∧
    transmitter_step (pop_batch s 16).1 now2 last2
      = ((pop_batch (pop_batch s 16).1 16).1,
         some (build_packet (pop_batch (pop_batch s 16).1 16).2)) ∧
    (pop_batch (pop_batch s 16).1 16).2.length = 16 ∧
    diff (pop_batch (pop_batch s 16).1 16).1 = 8 ∧
    transmitter_step (pop_batch (pop_batch s 16).1 16).1 now3 last3
      = ((pop_batch (pop_batch s 16).1 16).1, none) ∧
    transmitter_step (pop_batch (pop_batch s 16).1 16).1 now4 last4
      = ((pop_batch (pop_batch (pop_batch s 16).1 16).1 8).1,
         some (build_packet (pop_batch (pop_batch (pop_batch s 16).1 16).1 8).2)) ∧
    (pop_batch (pop_batch (pop_batch s 16).1 16).1 8).2.length = 8 ∧
    (build_packet (pop_batch (pop_batch (pop_batch s 16).1 16).1 8).2).length = 32 ∧
    diff (pop_batch (pop_batch (pop_batch s 16).1 16).1 8).1 = 0 ∧
    ∀ (t : RB) (now last : Nat), t.write_index < U32 → t.read_index < U32 →
      (EVENT_CHUNK_SIZE ≤ diff t ∨ USB_SEND_INTERVAL_MS ≤ sub32 now last) →
      (pop_batch t (min EVENT_CHUNK_SIZE (diff t))).2.length
          = min EVENT_CHUNK_SIZE (diff t) ∧
      diff (transmitter_step t now last).1
          = diff t - min EVENT_CHUNK_SIZE (diff t) := by
  have hmin1 : min EVENT_CHUNK_SIZE (diff s) = 16 := by
    rw [hd]
    decide
  have spec1 := pop_batch_spec 16 s hw hr (by omega)
  have hw1 : (pop_batch s 16).1.write_index < U32 := by rw [spec1.1]; exact hw
  have hr1 : (pop_batch s 16).1.read_index < U32 := by
    rw [spec1.2.1]; exact Nat.mod_lt _ (by simp [U32])
  have hd1 : diff (pop_batch s 16).1 = 24 := by
    rw [spec1.2.2.2.2, hd]
  have f1 : transmitter_step s now1 last1
      = ((pop_batch s 16).1, some (build_packet (pop_batch s 16).2)) := by
    have := transmitter_fire s now1 last1
      (Or.inl (by simp [EVENT_CHUNK_SIZE, hd])) (by omega)
    rwa [hmin1] at this
  have hmin2 : min EVENT_CHUNK_SIZE (diff (pop_batch s 16).1) = 16 := by
    rw [hd1]
    decide
  have spec2 := pop_batch_spec 16 (pop_batch s 16).1 hw1 hr1 (by omega)
  have hw2 : (pop_batch (pop_batch s 16).1 16).1.write_index < U32 := by
    rw [spec2.1]; exact hw1
  have hr2 : (pop_batch (pop_batch s 16).1 16).1.read_index < U32 := by
    rw [spec2.2.1]; exact Nat.mod_lt _ (by simp [U32])
  have hd2 : diff (pop_batch (pop_batch s 16).1 16).1 = 8 := by
    rw [spec2.2.2.2.2, hd1]
  have f2 : transmitter_step (pop_batch s 16).1 now2 last2
      = ((pop_batch (pop_batch s 16).1 16).1,
         some (build_packet (pop_batch (pop_batch s 16).1 16).2)) := by
    have := transmitter_fire (pop_batch s 16).1 now2 last2
      (Or.inl (by simp [EVENT_CHUNK_SIZE, hd1])) (by omega)
    rwa [hmin2] at this
  have f3 : transmitter_step (pop_batch (pop_batch s 16).1 16).1 now3 last3
      = ((pop_batch (pop_batch s 16).1 16).1, none) := by
    apply transmitter_idle
    intro hor
    rcases hor with hcase | hcase
    · rw [hd2] at hcase
      simp [EVENT_CHUNK_SIZE] at hcase
    · simp only [USB_SEND_INTERVAL_MS] at hcase hno
      omega
  have hmin3 : min EVENT_CHUNK_SIZE (diff (pop_batch (pop_batch s 16).1 16).1)
      = 8 := by
    rw [hd2]
    decide
  have spec3 := pop_batch_spec 8 (pop_batch (pop_batch s 16).1 16).1 hw2 hr2
    (by omega)
  have hd3 : diff (pop_batch (pop_batch (pop_batch s 16).1 16).1 8).1 = 0 := by
    rw [spec3.2.2.2.2, hd2]
  have f4 : transmitter_step (pop_batch (pop_batch s 16).1 16).1 now4 last4
      = ((pop_batch (pop_batch (pop_batch s 16).1 16).1 8).1,
         some (build_packet (pop_batch (pop_batch (pop_batch s 16).1 16).1 8).2)) := by
    have := transmitter_fire (pop_batch (pop_batch s 16).1 16).1 now4 last4
      (Or.inr hyes) (by omega)
    rwa [hmin3] at this
  refine ⟨f1, spec1.2.2.2.1, by rw [build_packet_length, spec1.2.2.2.1],
    hd1, f2, spec2.2.2.2.1, hd2, f3, f4, spec3.2.2.2.1,
    by rw [build_packet_length, spec3.2.2.2.1], hd3, ?_⟩
  intro t now last hwT hrT hcond
  by_cases hz : diff t = 0
  · have h0 : min EVENT_CHUNK_SIZE (diff t) = 0 := by
      rw [hz]
      decide
    constructor
    · rw [h0]
      rfl
    · rw [transmitter_empty t now last hz, h0, hz]
  · have hfire := transmitter_fire t now last hcond (by omega)
    have hspec := pop_batch_spec (min EVENT_CHUNK_SIZE (diff t)) t hwT hrT
      (Nat.min_le_right _ _)
    refine ⟨hspec.2.2.2.1, ?_⟩
    rw [hfire]
    exact hspec.2.2.2.2

/-- Closed-form witness for `chunking_deterministic`. -/
theorem chunking_deterministic_witness :
    (pop_batch (RB.mk 40 0 []) 16).2.length = 16 ∧
    diff (pop_batch (pop_batch (RB.mk 40 0 []) 16).1 16).1 = 8 ∧
    diff (pop_batch (pop_batch (pop_batch (RB.mk 40 0 []) 16).1 16).1 8).1
      = 0 := by
  obtain ⟨a1, a2, a3, a4, b1, b2, b4, c1, d1, d2, d3, d4, g⟩ :=
    chunking_deterministic (RB.mk 40 0 []) 0 0 0 0 0 0 5 0
      (by decide) (by decide) (by decide) (by decide) (by decide)
  exact ⟨a2, b4, d4⟩

/-- C7: every packet handed to the transport has length a multiple of
4, and its i-th 4-byte group is the little-endian encoding (least
significant byte first) of the i-th drained event word in arrival
order. -/
theorem packet_format (s : RB) (now last : Nat) (pkt : List Nat)
    (h : (transmitter_step s now last).2 = some pkt) :
    pkt = build_packet (pop_batch s (min EVENT_CHUNK_SIZE (diff s))).2 ∧
    pkt.length % 4 = 0 ∧
    (∀ i, i < (pop_batch s (min EVENT_CHUNK_SIZE (diff s))).2.length →
      (pkt.drop (4 * i)).take 4
        = serialize_event
          ((pop_batch s (min EVENT_CHUNK_SIZE (diff s))).2.getD i 0)) ∧
    ∀ e : Nat, serialize_event e
      = [e % 2 ^ 8, e / 2 ^ 8 % 2 ^ 8, e / 2 ^ 16 % 2 ^ 8,
         e / 2 ^ 24 % 2 ^ 8] := by
  have hpkt : pkt = build_packet (pop_batch s (min EVENT_CHUNK_SIZE (diff s))).2 := by
    by_cases h1 : EVENT_CHUNK_SIZE ≤ diff s
        ∨ USB_SEND_INTERVAL_MS ≤ sub32 now last
    · by_cases h2 : 0 < min EVENT_CHUNK_SIZE (diff s)
      · simp only [transmitter_step, if_pos h1, if_pos h2,
          Option.some.injEq] at h
        exact h.symm
      · simp only [transmitter_step, if_pos h1, if_neg h2] at h
        simp at h
    · simp only [transmitter_step, if_neg h1] at h
      simp at h
  refine ⟨hpkt, ?_, ?_, ?_⟩
  · rw [hpkt, build_packet_length]
    omega
  · intro i hi
    rw [hpkt]
    exact build_packet_group _ i hi
  · intro e
    have hm : ∀ x : Nat, x &&& 0xFF = x % 2 ^ 8 := by
      intro x
      have h255 : (0xFF : Nat) = 2 ^ 8 - 1 := by norm_num
      rw [h255, Nat.and_pow_two_sub_one_eq_mod]
    simp only [serialize_event, hm, Nat.shiftRight_eq_div_pow]

/-- Closed-form witness for `packet_format`. -/
theorem packet_format_witness :
    [7, 0, 0, 0] = build_packet (pop_batch (RB.mk 1 0 [7])
        (min EVENT_CHUNK_SIZE (diff (RB.mk 1 0 [7])))).2 ∧
    ([7, 0, 0, 0] : List Nat).length % 4 = 0 :=
  have h : (transmitter_step (RB.mk 1 0 [7]) 5 0).2 = some [7, 0, 0, 0] := by
    decide
  ⟨(packet_format _ 5 0 _ h).1, (packet_format _ 5 0 _ h).2.1⟩

/-! ### Edge capture and session lifecycle -/

/-- Pin-to-channel mapping of `HAL_GPIO_EXTI_Callback` (main.c lines
100–105). -/
def pin_channel (pin : Nat) : Option Nat :=
  if pin = GPIO_PIN_4 then some 0
  else if pin = GPIO_PIN_5 then some 1
  else if pin = GPIO_PIN_6 then some 2
  else if pin = GPIO_PIN_7 then some 3
  else none

/-- `HAL_GPIO_EXTI_Callback` (main.c lines 97–118): map the pin to a
channel (returning unchanged if unmapped), classify the edge from the
sampled `pin_state`, encode, and run the push path.  `time` is the
`get_32bit_timer()` value, `pin_state` the `HAL_GPIO_ReadPin` sample. -/
def HAL_GPIO_EXTI_Callback (s : RB) (pin : Nat) (pin_state : Bool)
    (time : Nat) : RB :=
  match pin_channel pin with
  | none => s
  | some channel =>
      (try_push s (encode_event (if pin_state then 1 else 0) channel time)).1

/-- C9: for every pin identity not mapped to a channel (anything other
than `GPIO_PIN_4 .. GPIO_PIN_7`), the edge-capture callback returns
without any effect: cursors and buffer contents are all unchanged. -/
theorem unmapped_pin_noop (pin : Nat)
    (h4 : pin ≠ GPIO_PIN_4) (h5 : pin ≠ GPIO_PIN_5)
    (h6 : pin ≠ GPIO_PIN_6) (h7 : pin ≠ GPIO_PIN_7)
    (s : RB) (pin_state : Bool) (time : Nat) :
    HAL_GPIO_EXTI_Callback s pin pin_state time = s := by
  simp [HAL_GPIO_EXTI_Callback, pin_channel, h4, h5, h6, h7]

/-- Closed-form witness for `unmapped_pin_noop`
(`GPIO_PIN_3 = 8` is not a channel pin). -/
theorem unmapped_pin_noop_witness :
    HAL_GPIO_EXTI_Callback (RB.mk 3 1 [9, 9]) 8 true 77 = RB.mk 3 1 [9, 9] :=
  unmapped_pin_noop 8 (by decide) (by decide) (by decide) (by decide)
    (RB.mk 3 1 [9, 9]) true 77

/-- Full device state: the buffer plus the NVIC interrupt-enable lines
and timer run flags toggled by the stop sequence. -/
structure Sys where
  rb : RB
  exti4_enabled : Bool
  exti9_5_enabled : Bool
  tim2_running : Bool
  tim3_running : Bool
deriving DecidableEq

/-- Modelled from the spec: the external interrupt collaborator invokes
`HAL_GPIO_EXTI_Callback` once per qualifying transition, but only while
the NVIC line serving the pin (EXTI4 for pin 4, EXTI9_5 for pins 5–7)
is enabled; after `HAL_NVIC_DisableIRQ` no further invocation occurs.
The spec's stop transition "disable the interrupt source(s) feeding
EdgeCapture" relies on exactly this. -/
def on_edge (st : Sys) (pin : Nat) (pin_state : Bool) (time : Nat) : Sys :=
  if (pin = GPIO_PIN_4 ∧ st.exti4_enabled = true)
      ∨ ((pin = GPIO_PIN_5 ∨ pin = GPIO_PIN_6 ∨ pin = GPIO_PIN_7)
          ∧ st.exti9_5_enabled = true) then
    { st with rb := HAL_GPIO_EXTI_Callback st.rb pin pin_state time }
  else st

/-- The six statements of the stop body (main.c lines 202–207), one
constructor per statement. -/
inductive StopAction where
  | stopTim2
  | stopTim3
  | disableEXTI4
  | disableEXTI9_5
  | resetWriteIndex
  | resetReadIndex
deriving DecidableEq

/-- The stop body statements in program order: stop TIM2, stop TIM3,
disable EXTI4, disable EXTI9_5, `write_index = 0`, `read_index = 0`. -/
def stop_actions : List StopAction :=
  [StopAction.stopTim2, StopAction.stopTim3, StopAction.disableEXTI4,
   StopAction.disableEXTI9_5, StopAction.resetWriteIndex,
   StopAction.resetReadIndex]

def apply_stop_action (st : Sys) : StopAction → Sys
  | StopAction.stopTim2 => { st with tim2_running := false }
  | StopAction.stopTim3 => { st with tim3_running := false }
  | StopAction.disableEXTI4 => { st with exti4_enabled := false }
  | StopAction.disableEXTI9_5 => { st with exti9_5_enabled := false }
  | StopAction.resetWriteIndex =>
      { st with rb := { st.rb with write_index := 0 } }
  | StopAction.resetReadIndex =>
      { st with rb := { st.rb with read_index := 0 } }

/-- Does this statement disable an edge-interrupt source? -/
def disables_irq : StopAction → Bool
  | StopAction.disableEXTI4 => true
  | StopAction.disableEXTI9_5 => true
  | _ => false

/-- Does this statement reset a buffer cursor? -/
def resets_cursor : StopAction → Bool
  | StopAction.resetWriteIndex => true
  | StopAction.resetReadIndex => true
  | _ => false

/-- The session-lifecycle check of one main-loop iteration (main.c
lines 200–208): on `get_32bit_timer() >= 1 << 29`, run the stop body. -/
def session_check (st : Sys) (tick : Nat) : Sys :=
  if 2 ^ 29 ≤ tick then stop_actions.foldl apply_stop_action st else st

/-- C8: once the tick reaches `2 ^ 29`, the stop body disables the
edge-interrupt sources strictly before resetting the cursors (statement
order), both cursors read back 0 immediately after the transition, both
interrupt lines are disabled, and no subsequent `on_edge` invocation
(before a fresh initialization) changes the state — in particular none
stores an event or advances `write_index`. -/
theorem session_check_stop (st : Sys) (tick : Nat) (h : 2 ^ 29 ≤ tick) :
    session_check st tick
      = ⟨⟨0, 0, st.rb.event_buffer⟩, false, false, false, false⟩ := by
  unfold session_check
  rw [if_pos h]
  simp [stop_actions, apply_stop_action]

theorem session_stop (st : Sys) (tick : Nat) (h : 2 ^ 29 ≤ tick) :
    (∀ i j : Fin stop_actions.length,
      disables_irq (stop_actions.get i) = true →
      resets_cursor (stop_actions.get j) = true → (i : Nat) < (j : Nat)) ∧
    (session_check st tick).rb.write_index = 0 ∧
    (session_check st tick).rb.read_index = 0 ∧
    (session_check st tick).exti4_enabled = false ∧
    (session_check st tick).exti9_5_enabled = false ∧
    ∀ (pin : Nat) (pin_state : Bool) (time : Nat),
      on_edge (session_check st tick) pin pin_state time
        = session_check st tick := by
  have hstop := session_check_stop st tick h
  refine ⟨by decide, by rw [hstop], by rw [hstop], by rw [hstop],
    by rw [hstop], ?_⟩
  intro pin pin_state time
  rw [hstop]
  simp [on_edge]

/-- Closed-form witness for `session_stop`. -/
theorem session_stop_witness :
    (session_check ⟨⟨5, 2, [1]⟩, true, true, true, true⟩
        (2 ^ 29)).rb.write_index = 0 ∧
    (session_check ⟨⟨5, 2, [1]⟩, true, true, true, true⟩
        (2 ^ 29)).rb.read_index = 0 ∧
    on_edge (session_check ⟨⟨5, 2, [1]⟩, true, true, true, true⟩ (2 ^ 29))
        GPIO_PIN_4 true 7
      = session_check ⟨⟨5, 2, [1]⟩, true, true, true, true⟩ (2 ^ 29) :=
  ⟨(session_stop _ _ (by decide)).2.1, (session_stop _ _ (by decide)).2.2.1,
   (session_stop _ _ (by decide)).2.2.2.2.2 GPIO_PIN_4 true 7⟩

/-- Main-loop context: device state plus the local
`last_usb_send_time`. -/
structure MainState where
  sys : Sys
  last_usb_send_time : Nat
deriving DecidableEq

/-- One main-loop iteration (main.c lines 164–213): the transmitter
section, whose successful send updates `last_usb_send_time`, followed
by the session-lifecycle check.  `now` is the `HAL_GetTick()` read,
`tick` the `get_32bit_timer()` read.  Returns the packet handed to the
transport, if any. -/
def main_loop_iter (m : MainState) (now tick : Nat) :
    MainState × Option (List Nat) :=
  ({ sys := session_check
       { m.sys with rb := (transmitter_step m.sys.rb now m.last_usb_send_time).1 }
       tick,
     last_usb_send_time :=
       if ((transmitter_step m.sys.rb now m.last_usb_send_time).2).isSome
       then now else m.last_usb_send_time },
   (transmitter_step m.sys.rb now m.last_usb_send_time).2)

/-- An externally visible step: either one main-loop iteration with its
hardware reads, or one edge interrupt delivered by the platform. -/
inductive SysEv where
  | iter : Nat → Nat → SysEv
  | edge : Nat → Bool → Nat → SysEv
deriving DecidableEq

def sys_step (m : MainState) : SysEv → MainState × Option (List Nat)
  | SysEv.iter now tick => main_loop_iter m now tick
  | SysEv.edge pin pin_state time =>
      ({ m with sys := on_edge m.sys pin pin_state time }, none)

/-- Run a sequence of steps, collecting every packet handed to the
transport. -/
def sys_run (m : MainState) : List SysEv → MainState × List (List Nat)
  | [] => (m, [])
  | ev :: rest =>
      ((sys_run (sys_step m ev).1 rest).1,
       match (sys_step m ev).2 with
       | none => (sys_run (sys_step m ev).1 rest).2
       | some p => p :: (sys_run (sys_step m ev).1 rest).2)

/-- The post-stop configuration: cursors zero, both interrupt lines
disabled. -/
def Stopped (m : MainState) : Prop :=
  m.sys.rb.write_index = 0 ∧ m.sys.rb.read_index = 0 ∧
  m.sys.exti4_enabled = false ∧ m.sys.exti9_5_enabled = false

theorem stopped_step (m : MainState) (ev : SysEv) (h : Stopped m) :
    Stopped (sys_step m ev).1 ∧ (sys_step m ev).2 = none := by
  obtain ⟨hwz, hrz, h4, h95⟩ := h
  cases ev with
  | edge pin pin_state time =>
    refine ⟨?_, rfl⟩
    show Stopped ⟨on_edge m.sys pin pin_state time, m.last_usb_send_time⟩
    rw [show on_edge m.sys pin pin_state time = m.sys by
      simp [on_edge, h4, h95]]
    exact ⟨hwz, hrz, h4, h95⟩
  | iter now tick =>
    have hdiff : diff m.sys.rb = 0 := by
      simp [diff, sub32, hwz, hrz, U32]
    have htx : transmitter_step m.sys.rb now m.last_usb_send_time
        = (m.sys.rb, none) := transmitter_empty _ _ _ hdiff
    constructor
    · show Stopped (main_loop_iter m now tick).1
      simp only [main_loop_iter, htx]
      by_cases hstop : 2 ^ 29 ≤ tick
      · rw [session_check_stop _ _ hstop]
        exact ⟨rfl, rfl, rfl, rfl⟩
      · unfold session_check
        rw [if_neg hstop]
        exact ⟨hwz, hrz, h4, h95⟩
    · show (main_loop_iter m now tick).2 = none
      simp [main_loop_iter, htx]

theorem stopped_run (evs : List SysEv) : ∀ m : MainState, Stopped m →
    Stopped (sys_run m evs).1 ∧ (sys_run m evs).2 = [] := by
  induction evs with
  | nil => exact fun m h => ⟨h, rfl⟩
  | cons ev rest ih =>
    intro m h
    have h1 := stopped_step m ev h
    have h2 := ih _ h1.1
    constructor
    · exact h2.1
    · show (match (sys_step m ev).2 with
        | none => (sys_run (sys_step m ev).1 rest).2
        | some p => p :: (sys_run (sys_step m ev).1 rest).2) = []
      rw [h1.2]
      exact h2.2

/-- C10: if the stop condition fires while events are still pending
(`diff > 0`), the stop transition resets both cursors to 0 without
touching the buffer contents and without producing any packet, and from
the stopped state no packet is ever handed to the transport again by
any later interleaving of main-loop iterations and edge interrupts: the
pending events are discarded, never serialized. -/
theorem stop_discards_pending (sys : Sys) (tick last : Nat)
    (hpending : 0 < diff sys.rb) (htick : 2 ^ 29 ≤ tick) :
    (session_check sys tick).rb.write_index = 0 ∧
    (session_check sys tick).rb.read_index = 0 ∧
    (session_check sys tick).rb.event_buffer = sys.rb.event_buffer ∧
    ∀ evs : List SysEv,
      (sys_run ⟨session_check sys tick, last⟩ evs).2 = [] := by
  have hstop := session_check_stop sys tick htick
  refine ⟨by rw [hstop], by rw [hstop], by rw [hstop], ?_⟩
  intro evs
  exact (stopped_run evs ⟨session_check sys tick, last⟩
    (by rw [hstop]; exact ⟨rfl, rfl, rfl, rfl⟩)).2

/-- Closed-form witness for `stop_discards_pending`. -/
theorem stop_discards_pending_witness :
    (session_check ⟨⟨3, 0, [5, 6, 7]⟩, true, true, true, true⟩
        (2 ^ 29)).rb.write_index = 0 ∧
    (sys_run ⟨session_check ⟨⟨3, 0, [5, 6, 7]⟩, true, true, true, true⟩
        (2 ^ 29), 0⟩
      [SysEv.iter 9 0, SysEv.edge GPIO_PIN_4 true 3, SysEv.iter 11 0]).2
      = [] :=
  ⟨(stop_discards_pending ⟨⟨3, 0, [5, 6, 7]⟩, true, true, true, true⟩
      (2 ^ 29) 0 (by decide) (by decide)).1,
   (stop_discards_pending ⟨⟨3, 0, [5, 6, 7]⟩, true, true, true, true⟩
      (2 ^ 29) 0 (by decide) (by decide)).2.2.2
     [SysEv.iter 9 0, SysEv.edge GPIO_PIN_4 true 3, SysEv.iter 11 0]⟩

end LA
